import Mathlib

/-!
# Verification of the `mime-multipart` parser and writer

This development shallowly embeds `src/lib.rs` and `src/error.rs` of the
`mime-multipart-hyper1` crate over byte lists (`List Nat`), and proves the
specification's claims about boundary extraction, terminator sniffing, part
classification, header-block parsing, file sizes, nested containers and the
writer/parser round trip.

Modelling conventions:
* A byte stream (`std::io::Read` + `BufReader`) is a `List Nat`; `fill_buf`
  peeking is reading a prefix of the remaining list.
* `http::HeaderMap` is an insertion-ordered list of (lowercased name, value)
  byte-list pairs, following the crate's usage (`append`, first-match `get`).
* External collaborators whose sources are not in `src/` are modelled from
  their documented contracts: `buf_read_ext::stream_until_token`
  (`streamUntilToken`), `httparse::parse_headers` (`phLoop`),
  `mime::Mime::from_str` (`parseMime`), `HeaderValue::to_str` (`toStr`),
  `HeaderName::from_str` / `HeaderValue::from_bytes` validity (`hnOk`/`hvOk`).
* A `FilePart`'s on-disk file is represented by the byte list streamed into
  it; its path and temp directory are immaterial to the claims.
* The unbounded `loop` in `inner` and the recursion between `inner` and the
  part loop are modelled with an explicit fuel parameter; exhausted fuel is
  `none`, a genuine result is `some (Except ..)`.
-/

/-- Bytes of an ASCII string literal, used for the byte-constants of the code. -/
def bs (s : String) : List Nat := s.data.map Char.toNat

/-- Ordered multimap of headers: (lowercased name bytes, value bytes). -/
abbrev HeaderMap := List (List Nat × List Nat)

/-- First value stored under `name` (names are stored lowercased, lookups use
lowercase literals, mirroring `HeaderMap::get`'s case-insensitivity). -/
def hmGet (h : HeaderMap) (name : List Nat) : Option (List Nat) :=
  match h with
  | [] => none
  | (n, v) :: t => if n = name then some v else hmGet t name

/-- Visible-ASCII test of `http::HeaderValue::to_str`: succeeds only when every
byte is in 32..126 or is a tab. -/
def visOk (b : Nat) : Bool := (32 ≤ b && b < 127) || b == 9

/-- Model of `HeaderValue::to_str`: the string's bytes, or failure. -/
def toStr (v : List Nat) : Option (List Nat) :=
  if v.all visOk then some v else none

/-- Byte validity of `http::HeaderValue::from_bytes`. -/
def hvByteOk (b : Nat) : Bool := b == 9 || (32 ≤ b && b != 127)

/-- RFC 7230 `tchar` test, the byte validity of header names in both
`httparse` and `http::HeaderName`. -/
def tcharOk (b : Nat) : Bool :=
  (48 ≤ b && b ≤ 57) || (65 ≤ b && b ≤ 90) || (97 ≤ b && b ≤ 122) ||
  b == 33 || b == 35 || b == 36 || b == 37 || b == 38 || b == 39 ||
  b == 42 || b == 43 || b == 45 || b == 46 || b == 94 || b == 95 ||
  b == 96 || b == 124 || b == 126

/-- ASCII lowercasing of one byte, as `HeaderName::from_str` performs. -/
def lowerByte (b : Nat) : Nat := if 65 ≤ b ∧ b ≤ 90 then b + 32 else b

/-- ASCII lowercasing of a byte list. -/
def lowerBytes (l : List Nat) : List Nat := l.map lowerByte

/-- Byte-substring test, the semantics of Rust's `str::contains` used by the
file-vs-memory classification (case-sensitive, exact bytes). -/
def containsSeq (needle : List Nat) : List Nat → Bool
  | [] => needle.isEmpty
  | b :: t => needle.isPrefixOf (b :: t) || containsSeq needle t

/-- Result of one `stream_until_token` call: the bytes streamed to the sink,
whether the token was found, and the unconsumed remainder of the source. -/
structure ScanResult where
  out : List Nat
  found : Bool
  rest : List Nat
deriving Repr, DecidableEq

/-- Modelled from the spec: `buf_read_ext::stream_until_token` (the Token
Scanner of section 4.1, whose source is not under `src/`). All bytes before
the first occurrence of `tok` are streamed to the sink; the token itself is
consumed but not streamed; if the source is exhausted first, everything read
was streamed and `found` is false. The returned byte count of the Rust API is
`out.length`. -/
def streamUntilToken (tok : List Nat) : List Nat → ScanResult
  | [] => ⟨[], false, []⟩
  | b :: rest =>
    if tok.isPrefixOf (b :: rest) then ⟨[], true, (b :: rest).drop tok.length⟩
    else
      let r := streamUntilToken tok rest
      ⟨b :: r.out, r.found, r.rest⟩

/-! ## Model of the external `mime` crate (excluded collaborator, section 1) -/

/-- Parsed MIME type: top-level type, subtype, and parameters, with type and
parameter names lowercased as the `mime` crate does. -/
structure MimeTy where
  top : List Nat
  sub : List Nat
  params : List (List Nat × List Nat)
deriving Repr, DecidableEq

/-- Parameter-list tail of a MIME value: repeatedly `; name=value` with the
value either bare (up to the next `;`) or double-quoted (stored unquoted).
Fuel-driven; callers pass the input length. -/
def mimeParamsF : Nat → List Nat → Option (List (List Nat × List Nat))
  | _, [] => some []
  | 0, _ :: _ => none
  | f + 1, 59 :: rest =>
    let r1 := rest.dropWhile (fun b => b == 32)
    let name := r1.takeWhile (fun b => b != 61 && b != 59 && b != 32)
    if name = [] then none
    else
      match r1.drop name.length with
      | 61 :: r2 =>
        match r2 with
        | 34 :: r3 =>
          let v := r3.takeWhile (fun b => b != 34)
          match r3.drop v.length with
          | 34 :: r4 =>
            match mimeParamsF f r4 with
            | some ps => some ((lowerBytes name, v) :: ps)
            | none => none
          | _ => none
        | _ =>
          let v := r2.takeWhile (fun b => b != 59)
          match mimeParamsF f (r2.drop v.length) with
          | some ps => some ((lowerBytes name, v) :: ps)
          | none => none
      | _ => none
  | _, _ :: _ => none

/-- Modelled from the documented grammar of `mime::Mime::from_str` (the MIME
content-type value parser, an external collaborator): `type/subtype` followed
by optional `; name=value` parameters. -/
def parseMime (s : List Nat) : Option MimeTy :=
  let top := s.takeWhile (fun b => b != 47)
  if top = [] then none
  else if top.all tcharOk = false then none
  else
    match s.drop top.length with
    | 47 :: r =>
      let sub := r.takeWhile (fun b => b != 59)
      if sub = [] then none
      else if sub.all tcharOk = false then none
      else
        match mimeParamsF s.length (r.drop sub.length) with
        | some ps => some ⟨lowerBytes top, lowerBytes sub, ps⟩
        | none => none
    | _ => none

/-- Lookup of a MIME parameter by (lowercase) name; `mime::Mime::get_param`. -/
def mimeGetParam (m : MimeTy) (name : List Nat) : Option (List Nat) :=
  match m.params.find? (fun p => p.1 == name) with
  | some p => some p.2
  | none => none

/-! ## Error type (`src/error.rs`) -/

/-- Error cases of `error.rs` that the byte-stream model can produce. `Io`,
`Http`, `Utf8`, `HeaderMissing` and the filename variants cannot arise from a
pure in-memory source and are omitted; `ToStr`'s payload is dropped. -/
inductive Err where
  | NoRequestContentType
  | NotMultipart
  | BoundaryNotSpecified
  | PartialHeaders
  | EofInMainHeaders
  | EofBeforeFirstBoundary
  | NoCrLfAfterBoundary
  | EofInPartHeaders
  | EofInFile
  | EofInPart
  | InvalidHeaderNameOrValue
  | HeaderValueNotMime
  | ToStr
  | Httparse (e : Bool)
deriving Repr, DecidableEq

/-- The `httparse::Error::TooManyHeaders` payload, the one `httparse` error
the claims distinguish; other malformed-header errors are `false`. -/
def tooManyHeaders : Bool := true

/-! ## Model of `httparse::parse_headers` (external collaborator) -/

/-- Outcome of the low-level header tokenizer. -/
inductive HttparseOut where
  | complete (raws : List (List Nat × List Nat))
  | incomplete
  | failed (tooMany : Bool)
deriving Repr, DecidableEq

/-- Cut the first line off a buffer at its LF, returning the line (still
carrying a trailing CR if the terminator was CRLF) and the remainder;
`none` when no LF remains. -/
def phSplitLine : List Nat → Option (List Nat × List Nat)
  | [] => none
  | b :: rest =>
    if b = 10 then some ([], rest)
    else
      match phSplitLine rest with
      | some (l, r) => some (b :: l, r)
      | none => none

/-- Classification of one header line. -/
inductive LineKind where
  | blank
  | hdr (name value : List Nat)
  | bad
deriving Repr, DecidableEq

/-- Modelled from `httparse`'s documented header-line grammar: `name: value`
with a `tchar` name, leading spaces and tabs of the value skipped, trailing
whitespace kept; an empty line ends the block; stray control bytes fail. -/
def phParseLine (line : List Nat) : LineKind :=
  let core := if line.getLast? = some 13 then line.dropLast else line
  if core.any (fun b => b == 13) then .bad
  else if core = [] then .blank
  else
    let name := core.takeWhile (fun b => b != 58)
    let rest := core.drop name.length
    if rest.head? = some 58 then
      if name = [] then .bad
      else if name.all tcharOk = false then .bad
      else
        let v := (rest.drop 1).dropWhile (fun b => b == 32 || b == 9)
        if v.all hvByteOk then .hdr name v else .bad
    else .bad

/-- Modelled from the spec: `httparse::parse_headers` over a caller-supplied
header array of `cap` slots. Parses lines until the blank line; a header line
with no slot left fails with `TooManyHeaders`; a missing blank line is the
`Partial` status. -/
def phLoop : Nat → List Nat → List (List Nat × List Nat) → HttparseOut
  | cap, buf, acc =>
    match phSplitLine buf with
    | none => .incomplete
    | some (line, rest) =>
      match phParseLine line with
      | .blank => .complete acc
      | .bad => .failed false
      | .hdr n v =>
        match cap with
        | 0 => .failed tooManyHeaders
        | cap' + 1 => phLoop cap' rest (acc ++ [(n, v)])

/-- Strip trailing space bytes (0x20) from a value, as `lib.rs` does before
`HeaderValue::from_bytes` (lines 172–178). -/
def trimTrailSp (v : List Nat) : List Nat :=
  (v.reverse.dropWhile (fun b => b == 32)).reverse

/-- Validity of `HeaderName::from_str`. -/
def hnOk (n : List Nat) : Bool := n != [] && n.all tcharOk

/-- Validity of `HeaderValue::from_bytes`. -/
def hvOk (v : List Nat) : Bool := v.all hvByteOk

/-- The header-collection loop of `lib.rs` (duplicated verbatim at lines
166–191 for the outer block and 288–313 for each part block): walk the raw
headers in order, stop at the first empty value, trim trailing spaces,
validate value and name, lowercase the name, and append. -/
def buildHeadersGo (acc : HeaderMap) : List (List Nat × List Nat) → Except Err HeaderMap
  | [] => .ok acc
  | (n, v) :: rest =>
    if v = [] then .ok acc
    else
      let t := trimTrailSp v
      if hvOk t = false then .error .InvalidHeaderNameOrValue
      else if hnOk n = false then .error .InvalidHeaderNameOrValue
      else buildHeadersGo (acc ++ [(lowerBytes n, t)]) rest

/-- Header-collection construction from raw parsed headers. -/
def buildHeaders (raws : List (List Nat × List Nat)) : Except Err HeaderMap :=
  buildHeadersGo [] raws

/-- Full header-block parse as `lib.rs` performs it at both sites: run
`httparse::parse_headers` with `cap` slots, then the collection loop;
`Partial` becomes `Error::PartialHeaders`, tokenizer failures become
`Error::Httparse`. -/
def phRun (block : List Nat) (cap : Nat) : Except Err HeaderMap :=
  match phLoop cap block [] with
  | .complete raws => buildHeaders raws
  | .incomplete => .error .PartialHeaders
  | .failed e => .error (.Httparse e)

/-! ## Boundary extraction (`get_multipart_boundary`, lib.rs 384–411) -/

/-- Boundary extraction of `lib.rs` lines 384–411: require a `content-type`
header, convert it to a string, parse it as a MIME type, require top-level
`multipart`, require a `boundary` parameter, and return `--` + its value. -/
def get_multipart_boundary (headers : HeaderMap) : Except Err (List Nat) :=
  match hmGet headers (bs "content-type") with
  | none => .error .NoRequestContentType
  | some ct =>
    match toStr ct with
    | none => .error .ToStr
    | some s =>
      match parseMime s with
      | none => .error .HeaderValueNotMime
      | some m =>
        if m.top ≠ bs "multipart" then .error .NotMultipart
        else
          match mimeGetParam m (bs "boundary") with
          | none => .error .BoundaryNotSpecified
          | some v => .ok ([45, 45] ++ v)

/-! ## The parsed-output tree -/

/-- The `Node` tree of `lib.rs` lines 129–137. A `file` node carries the bytes
streamed to its temporary file and the recorded `size`; the path and temp
directory of `FilePart` are immaterial to the claims and omitted. -/
inductive Node where
  | part (headers : HeaderMap) (body : List Nat)
  | file (headers : HeaderMap) (content : List Nat) (size : Option Nat)
  | multipart (headers : HeaderMap) (children : List Node)
deriving Repr

/-! ## The body parser (`inner`, lib.rs 223–381) -/

/-- Terminator sniff of `lib.rs` lines 241–257: peek the bytes after the
first boundary; CRLF selects the 2-byte CRLF terminator, a leading bare LF
selects the 1-byte LF terminator, anything else (including exhaustion) is
`NoCrLfAfterBoundary`. -/
def sniff (rest : List Nat) : Except Err (List Nat) :=
  if 2 ≤ rest.length ∧ rest.take 2 = [13, 10] then .ok [13, 10]
  else if rest.head? = some 10 then .ok [10]
  else .error .NoCrLfAfterBoundary

/-- Nested-container test of `lib.rs` lines 321–333: a part is nested when
its `content-type` parses to a MIME type whose top level is `multipart`;
an unconvertible value is `Error::ToStr`, an unparseable one
`Error::HeaderValueNotMime`; no header means not nested. -/
def checkNested (h : HeaderMap) : Except Err Bool :=
  match hmGet h (bs "content-type") with
  | some ct =>
    match toStr ct with
    | some v =>
      match parseMime v with
      | some m => .ok (m.top = bs "multipart")
      | none => .error .HeaderValueNotMime
    | none => .error .ToStr
  | none => .ok false

/-- File-vs-memory classification of `lib.rs` lines 342–350: a part is
streamed to a file when `always_use_files` is set (short-circuiting before
any header access), or when its `content-disposition` value contains the
byte substring `attachment` or `filename`. -/
def checkIsFile (auf : Bool) (h : HeaderMap) : Except Err Bool :=
  if auf then .ok true
  else
    match hmGet h (bs "content-disposition") with
    | some cd =>
      match toStr cd with
      | some v => .ok (containsSeq (bs "attachment") v || containsSeq (bs "filename") v)
      | none => .error .ToStr
    | none => .ok false

/-- Preamble of `inner` (lib.rs 229–257): extract the boundary, scan past its
first occurrence (discarding the preamble), and sniff the line terminator.
Returns the boundary token, the chosen terminator, and the stream still
positioned at the sniffed bytes. -/
def innerPre (headers : HeaderMap) (s : List Nat) : Except Err (List Nat × List Nat × List Nat) :=
  match get_multipart_boundary headers with
  | .error e => .error e
  | .ok boundary =>
    let r := streamUntilToken boundary s
    if r.found = false then .error .EofBeforeFirstBoundary
    else
      match sniff r.rest with
      | .error e => .error e
      | .ok lt => .ok (boundary, lt, r.rest)

/-- Part loop of `inner` (lib.rs 259–380), fuel-driven. Each iteration: peek
for the closing `--` (returning without consuming it); consume the line
terminator; scan to the doubled terminator for the part's header block and
parse it with a 4-slot header array; recurse for a nested `multipart`
content-type (re-running the preamble on the part's own headers); otherwise
classify file-vs-memory and stream the body to the inter-boundary token
`terminator + boundary`, recording the streamed byte count as a file's size. -/
def partLoopF : Nat → Bool → List Nat → List Nat → List Node → List Nat →
    Option (Except Err (List Node × List Nat))
  | 0, _, _, _, _, _ => none
  | fuel + 1, auf, boundary, lt, acc, s =>
    if 2 ≤ s.length ∧ s.take 2 = [45, 45] then some (.ok (acc, s))
    else
      let r1 := streamUntilToken lt s
      if r1.found = false then some (.error .NoCrLfAfterBoundary)
      else
        let r2 := streamUntilToken (lt ++ lt) r1.rest
        if r2.found = false then some (.error .EofInPartHeaders)
        else
          match phRun (r2.out ++ (lt ++ lt)) 4 with
          | .error e => some (.error e)
          | .ok ph =>
            match checkNested ph with
            | .error e => some (.error e)
            | .ok true =>
              match innerPre ph r2.rest with
              | .error e => some (.error e)
              | .ok (b2, lt2, s2) =>
                match partLoopF fuel auf b2 lt2 [] s2 with
                | none => none
                | some (.error e) => some (.error e)
                | some (.ok (children, s3)) =>
                  partLoopF fuel auf boundary lt (acc ++ [.multipart ph children]) s3
            | .ok false =>
              match checkIsFile auf ph with
              | .error e => some (.error e)
              | .ok true =>
                let r3 := streamUntilToken (lt ++ boundary) r2.rest
                if r3.found = false then some (.error .EofInFile)
                else partLoopF fuel auf boundary lt
                  (acc ++ [.file ph r3.out (some r3.out.length)]) r3.rest
              | .ok false =>
                let r3 := streamUntilToken (lt ++ boundary) r2.rest
                if r3.found = false then some (.error .EofInPart)
                else partLoopF fuel auf boundary lt (acc ++ [.part ph r3.out]) r3.rest

/-- `inner` of lib.rs 223–381: the preamble followed by the part loop. -/
def innerF (fuel : Nat) (headers : HeaderMap) (auf : Bool) (s : List Nat) :
    Option (Except Err (List Node × List Nat)) :=
  match innerPre headers s with
  | .error e => some (.error e)
  | .ok (b, lt, s') => partLoopF fuel auf b lt [] s'

/-- `read_multipart_body` (lib.rs 212–221): headers supplied separately, the
stream starts at the body. -/
def read_multipart_body (fuel : Nat) (headers : HeaderMap) (auf : Bool) (s : List Nat) :
    Option (Except Err (List Node)) :=
  match innerF fuel headers auf s with
  | none => none
  | some (.error e) => some (.error e)
  | some (.ok (ns, _)) => some (.ok ns)

/-- `read_multipart` (lib.rs 149–200): scan to `\r\n\r\n`, parse the outer
header block with a 64-slot header array, then parse the body. -/
def read_multipart (fuel : Nat) (auf : Bool) (s : List Nat) :
    Option (Except Err (List Node)) :=
  let r := streamUntilToken [13, 10, 13, 10] s
  if r.found = false then some (.error .EofInMainHeaders)
  else
    match phRun (r.out ++ [13, 10, 13, 10]) 64 with
    | .error e => some (.error e)
    | .ok headers =>
      match innerF fuel headers auf r.rest with
      | none => none
      | some (.error e) => some (.error e)
      | some (.ok (ns, _)) => some (.ok ns)

/-! ## The writer (`write_multipart`, lib.rs 475–550) -/

/-- Serialized header lines: `name: value\r\n` for each stored header in
order (lib.rs 491–496). -/
def headerLines : HeaderMap → List Nat
  | [] => []
  | (n, v) :: t => n ++ [58, 32] ++ v ++ [13, 10] ++ headerLines t

/-- Byte count the writer accumulates for the header lines: each
`write_all_count` adds `name`, `": "` (2), `value`, and CRLF (2). -/
def hdrCount : HeaderMap → Nat
  | [] => 0
  | (n, v) :: t => n.length + 2 + v.length + 2 + hdrCount t

/-- `write_multipart` (lib.rs 475–550) against an in-memory sink: for each
node emit `--boundary\r\n`, the headers, a blank line, and the body (a
part's buffer, a file's contents via `io::copy`, or the recursive serialized
children of a `multipart` under its own extracted boundary), then a trailing
CRLF; after all nodes the closing `--boundary--`. Returns the bytes and the
accumulated `write_all_count` total. -/
def write_multipart (boundary : List Nat) : List Node → Except Err (List Nat × Nat)
  | [] => .ok ([45, 45] ++ boundary ++ [45, 45], 2 + boundary.length + 2)
  | .part h body :: rest =>
    match write_multipart boundary rest with
    | .error e => .error e
    | .ok (o, c) =>
      .ok ([45, 45] ++ boundary ++ [13, 10] ++ headerLines h ++ [13, 10] ++ body ++ [13, 10] ++ o,
        2 + boundary.length + 2 + (hdrCount h + 2) + (body.length + 2) + c)
  | .file h content _ :: rest =>
    match write_multipart boundary rest with
    | .error e => .error e
    | .ok (o, c) =>
      .ok ([45, 45] ++ boundary ++ [13, 10] ++ headerLines h ++ [13, 10] ++ content ++ [13, 10] ++ o,
        2 + boundary.length + 2 + (hdrCount h + 2) + (content.length + 2) + c)
  | .multipart h children :: rest =>
    match get_multipart_boundary h with
    | .error e => .error e
    | .ok b2 =>
      match write_multipart b2 children with
      | .error e => .error e
      | .ok (oc, cc) =>
        match write_multipart boundary rest with
        | .error e => .error e
        | .ok (o, c) =>
          .ok ([45, 45] ++ boundary ++ [13, 10] ++ headerLines h ++ [13, 10] ++ oc ++ [13, 10] ++ o,
            2 + boundary.length + 2 + (hdrCount h + 2) + (cc + 2) + c)
termination_by ns => sizeOf ns
decreasing_by all_goals simp_wf <;> omega

/-! ## Auxiliary definitions used by the statements -/

mutual

/-- Size correctness of one node: every `file` node records exactly the
length of the bytes streamed to its file, recursively through containers. -/
def fileSizeOkB : Node → Bool
  | .part _ _ => true
  | .file _ content size => size == some content.length
  | .multipart _ children => fileSizeOkBs children

/-- Size correctness of a node list. -/
def fileSizeOkBs : List Node → Bool
  | [] => true
  | n :: t => fileSizeOkB n && fileSizeOkBs t

end

/-- A header name the `http` model stores unchanged: nonempty, `tchar` bytes,
already lowercase. -/
def goodName (n : List Nat) : Prop :=
  n ≠ [] ∧ ∀ b ∈ n, tcharOk b = true ∧ lowerByte b = b

/-- A header value the parser recovers unchanged: nonempty printable ASCII
that neither starts nor ends with a space. -/
def goodValue (v : List Nat) : Prop :=
  v ≠ [] ∧ (∀ b ∈ v, 32 ≤ b ∧ b ≤ 126) ∧ v.head? ≠ some 32 ∧ v.getLast? ≠ some 32

/-- A header the writer/parser round trip preserves byte for byte. -/
def goodHeader (p : List Nat × List Nat) : Prop := goodName p.1 ∧ goodValue p.2

/-- Serialized header lines without the final CRLF (the bytes the part-header
scan streams before finding the doubled terminator). -/
def hlCore : HeaderMap → List Nat
  | [] => []
  | [(n, v)] => n ++ [58, 32] ++ v
  | (n, v) :: p :: t => n ++ [58, 32] ++ v ++ [13, 10] ++ hlCore (p :: t)

/-- The byte stream the part loop consumes after the initial boundary token,
for a written sequence of in-memory parts under boundary token `tok`:
each part contributes its boundary-line terminator, header block, blank line,
body, and trailing terminator plus the next boundary token; the closing `--`
follows the last. Nodes other than `part` do not occur in the round-trip
statements and contribute nothing. -/
def streamFrom (tok : List Nat) : List Node → List Nat
  | [] => [45, 45]
  | .part h body :: rest =>
    [13, 10] ++ headerLines h ++ [13, 10] ++ body ++ [13, 10] ++ tok ++ streamFrom tok rest
  | _ :: rest => streamFrom tok rest

/-- Round-trip side conditions on one node: an in-memory part whose headers
survive serialization byte for byte (at most the 4 part-header slots, each
name/value good), which the parser classifies back as a non-nested in-memory
part, and whose body does not contain the inter-boundary token. -/
def goodPart (tok : List Nat) : Node → Prop
  | .part h body =>
    h ≠ [] ∧ h.length ≤ 4 ∧ (∀ p ∈ h, goodHeader p) ∧
    checkNested h = .ok false ∧ checkIsFile false h = .ok false ∧
    containsSeq ([13, 10] ++ tok) body = false
  | _ => False

/-! ## Token-scanner lemmas -/

/-- A found scan splits the source as streamed-output ++ token ++ remainder:
the token is consumed but never part of the sink's bytes. -/
theorem sut_split : ∀ {s : List Nat} (tok : List Nat) {out rest : List Nat},
    streamUntilToken tok s = ⟨out, true, rest⟩ → s = out ++ tok ++ rest := by
  intro s
  induction s with
  | nil => intro tok out rest h; simp [streamUntilToken] at h
  | cons b t ih =>
    intro tok out rest h
    by_cases hp : tok.isPrefixOf (b :: t)
    · rw [streamUntilToken, if_pos hp] at h
      simp only [ScanResult.mk.injEq] at h
      obtain ⟨h1, _, h3⟩ := h
      obtain ⟨u, hu⟩ := List.isPrefixOf_iff_prefix.mp hp
      subst h1
      rw [← h3, ← hu, List.drop_left]
      simp
    · rcases hr : streamUntilToken tok t with ⟨o1, f1, r1⟩
      have hstep : streamUntilToken tok (b :: t) = ⟨b :: o1, f1, r1⟩ := by
        rw [streamUntilToken, if_neg hp, hr]
      rw [hstep] at h
      simp only [ScanResult.mk.injEq] at h
      obtain ⟨h1, h2, h3⟩ := h
      subst h2
      subst h3
      have ht := ih tok hr
      rw [← h1, ht]
      simp

/-- Scanning a source that starts with the token consumes exactly the token
and streams nothing. -/
theorem sut_pref {tok s : List Nat} (hne : tok ≠ []) (hp : tok <+: s) :
    streamUntilToken tok s = ⟨[], true, s.drop tok.length⟩ := by
  cases s with
  | nil =>
    rw [List.prefix_nil] at hp
    exact absurd hp hne
  | cons b t =>
    rw [streamUntilToken, if_pos (List.isPrefixOf_iff_prefix.mpr hp)]

/-- First-occurrence characterization: when no occurrence of the token starts
inside `X`, scanning `X ++ tok ++ R` streams exactly `X` and leaves `R`. -/
theorem sut_exact : ∀ (X : List Nat) {tok R : List Nat}, tok ≠ [] →
    (∀ i, i < X.length → ¬ tok <+: ((X ++ tok ++ R).drop i)) →
    streamUntilToken tok (X ++ tok ++ R) = ⟨X, true, R⟩ := by
  intro X
  induction X with
  | nil =>
    intro tok R hne _
    simp only [List.nil_append]
    rw [sut_pref hne (List.prefix_append tok R)]
    simp [List.drop_left]
  | cons x X' ih =>
    intro tok R hne hcl
    show streamUntilToken tok (x :: (X' ++ tok ++ R)) = ⟨x :: X', true, R⟩
    have h0 : ¬ tok <+: (x :: (X' ++ tok ++ R)) := fun hc =>
      hcl 0 (by simp) (by simpa using hc)
    have hrec : streamUntilToken tok (X' ++ tok ++ R) = ⟨X', true, R⟩ := by
      refine ih hne (fun i hi hc => hcl (i + 1) (by simpa using Nat.succ_lt_succ hi) ?_)
      show tok <+: ((x :: X') ++ tok ++ R).drop (i + 1)
      simpa using hc
    rw [streamUntilToken, if_neg (fun hc => h0 (List.isPrefixOf_iff_prefix.mp hc)), hrec]

/-- For a token whose lead byte 13 never recurs in it, no occurrence can
straddle the end of a token-free block `X`, so scanning `X ++ tok ++ R`
streams exactly `X`. This is the body-scan situation: the inter-boundary
token starts with CR and the rest of it is CR-free. -/
theorem sut_head13 {tt X R : List Nat} (h13 : 13 ∉ tt)
    (hocc : ¬ (13 :: tt) <:+: X) :
    streamUntilToken (13 :: tt) (X ++ (13 :: tt) ++ R) = ⟨X, true, R⟩ := by
  apply sut_exact X (by simp)
  intro i hi hp
  by_cases hlen : i + (13 :: tt).length ≤ X.length
  · have hdrop : (X ++ (13 :: tt) ++ R).drop i = X.drop i ++ ((13 :: tt) ++ R) := by
      rw [List.append_assoc, List.drop_append_eq_append_drop,
        Nat.sub_eq_zero_of_le (Nat.le_of_lt hi), List.drop_zero]
    rw [hdrop] at hp
    have htk : (13 :: tt) = (X.drop i).take (13 :: tt).length := by
      have h1 := List.prefix_iff_eq_take.mp hp
      rw [List.take_append_eq_append_take] at h1
      have h2 : (13 :: tt).length - (X.drop i).length = 0 := by
        simp only [List.length_drop]
        omega
      rw [h2, List.take_zero, List.append_nil] at h1
      exact h1
    have hpx : (13 :: tt) <+: X.drop i := htk ▸ List.take_prefix _ _
    exact hocc (hpx.isInfix.trans (List.drop_suffix i X).isInfix)
  · obtain ⟨u, hu⟩ := hp
    have hj : ∀ j, j < (13 :: tt).length →
        (X ++ (13 :: tt) ++ R)[i + j]? = (13 :: tt)[j]? := by
      intro j hjl
      rw [← List.getElem?_drop, ← hu, List.getElem?_append, if_pos hjl]
    have hX : (X ++ (13 :: tt) ++ R)[X.length]? = some 13 := by
      rw [List.append_assoc, List.getElem?_append_right (Nat.le_refl _)]
      simp
    have hdlt : X.length - i < (13 :: tt).length := by
      simp only [List.length_cons] at hlen ⊢
      omega
    have h13d := hj (X.length - i) hdlt
    rw [Nat.add_sub_cancel' (Nat.le_of_lt hi), hX] at h13d
    rcases hk : X.length - i with _ | k
    · omega
    · rw [hk] at h13d
      have hmem : tt[k]? = some 13 := by simpa using h13d.symm
      obtain ⟨hlt, hg⟩ := List.getElem?_eq_some.mp hmem
      exact h13 (hg ▸ List.getElem_mem hlt)

/-- The byte-substring test agrees with list-infix. -/
theorem containsSeq_iff {needle : List Nat} : ∀ {hay : List Nat},
    containsSeq needle hay = true ↔ needle <:+: hay := by
  intro hay
  induction hay with
  | nil => simp [containsSeq, List.infix_nil, List.isEmpty_iff]
  | cons b t ih =>
    rw [containsSeq, List.infix_cons_iff, Bool.or_eq_true, ih,
      List.isPrefixOf_iff_prefix]

/-! ## Header-line lemmas -/

/-- Token characters are not CR, LF, or the colon. -/
theorem tcharOk_ne {b : Nat} (h : tcharOk b = true) : b ≠ 13 ∧ b ≠ 10 ∧ b ≠ 58 := by
  refine ⟨fun hb => ?_, fun hb => ?_, fun hb => ?_⟩ <;> subst hb <;> simp [tcharOk] at h

/-- Take-while runs through a satisfying block and stops at the first
failing byte. -/
theorem takeWhile_app {p : Nat → Bool} : ∀ {A : List Nat} {x : Nat} {B : List Nat},
    (∀ b ∈ A, p b = true) → p x = false → (A ++ x :: B).takeWhile p = A := by
  intro A
  induction A with
  | nil => intro x B _ hx; simp [List.takeWhile_cons, hx]
  | cons a t ih =>
    intro x B hA hx
    have ha : p a = true := hA a (by simp)
    simp [List.cons_append, List.takeWhile_cons, ha,
      ih (fun b hb => hA b (by simp [hb])) hx]

/-- Splitting at the first LF of `A ++ 10 :: B` with `A` LF-free yields
`(A, B)`. -/
theorem phSplitLine_app : ∀ {A : List Nat} {B : List Nat}, 10 ∉ A →
    phSplitLine (A ++ 10 :: B) = some (A, B) := by
  intro A
  induction A with
  | nil => intro B _; simp [phSplitLine]
  | cons a t ih =>
    intro B hA
    have ha : a ≠ 10 := fun hc => hA (by simp [hc])
    have ih' := ih (B := B) (fun hc => hA (by simp [hc]))
    simp only [List.cons_append, phSplitLine, if_neg ha, List.append_eq]
    rw [ih']

/-- Stripping trailing spaces is the identity on a value that does not end
with a space. -/
theorem trimTrailSp_noop {v : List Nat} (h : v.getLast? ≠ some 32) :
    trimTrailSp v = v := by
  unfold trimTrailSp
  cases hv : v.reverse with
  | nil => simp [List.reverse_eq_nil_iff.mp hv]
  | cons a t =>
    have ha : a ≠ 32 := by
      intro hc
      apply h
      rw [← List.head?_reverse, hv, hc]
      rfl
    rw [List.dropWhile_cons, if_neg (by simp [ha])]
    rw [← hv, List.reverse_reverse]

/-- Lowercasing is the identity on an already-lowercase name. -/
theorem lowerBytes_noop {n : List Nat} (h : ∀ b ∈ n, lowerByte b = b) :
    lowerBytes n = n := by
  unfold lowerBytes
  induction n with
  | nil => rfl
  | cons a t ih =>
    rw [List.map_cons, h a (by simp), ih (fun b hb => h b (by simp [hb]))]

/-- Byte 13 occurs in a serialized header line only as its CR, two bytes
from the end. -/
theorem line13 {n v : List Nat} (hn : ∀ b ∈ n, b ≠ 13) (hv : ∀ b ∈ v, b ≠ 13)
    {i : Nat} (h : (n ++ [58, 32] ++ v ++ [13, 10])[i]? = some 13) :
    i = n.length + 2 + v.length := by
  have e1 : ([58, 32] : List Nat).length = 2 := rfl
  rw [List.append_assoc, List.append_assoc, List.getElem?_append] at h
  split_ifs at h with h1
  · exact absurd rfl (hn _ ((List.getElem?_eq_some.mp h).2 ▸
      List.getElem_mem (List.getElem?_eq_some.mp h).1))
  · rw [List.getElem?_append] at h
    split_ifs at h with h2
    · rw [e1] at h2
      rcases hj : i - n.length with _ | _ | j
      · rw [hj] at h; simp at h
      · rw [hj] at h; simp at h
      · omega
    · rw [List.getElem?_append] at h
      split_ifs at h with h3
      · exact absurd rfl (hv _ ((List.getElem?_eq_some.mp h).2 ▸
          List.getElem_mem (List.getElem?_eq_some.mp h).1))
      · rw [e1] at h2 h3 h
        rcases hk : i - n.length - 2 - v.length with _ | _ | k
        · omega
        · rw [hk] at h; simp at h
        · rw [hk] at h; simp at h

/-- No two CRs two bytes apart occur in serialized header lines of good
headers. -/
theorem hdrCR : ∀ (hs : HeaderMap), (∀ p ∈ hs, goodHeader p) →
    ∀ i, (headerLines hs)[i]? = some 13 → (headerLines hs)[i + 2]? = some 13 → False := by
  intro hs
  induction hs with
  | nil => intro _ i h1 _; simp [headerLines] at h1
  | cons p t ih =>
    rcases p with ⟨n, v⟩
    intro hg i h1 h2
    have hgh := hg (n, v) (by simp)
    simp only [goodHeader, goodName, goodValue] at hgh
    obtain ⟨⟨hnne, hntc⟩, hvne, hvrange, _, _⟩ := hgh
    have hline : headerLines ((n, v) :: t) =
        (n ++ [58, 32] ++ v ++ [13, 10]) ++ headerLines t := by
      simp [headerLines]
    rw [hline, List.getElem?_append] at h1 h2
    have hlen : (n ++ [58, 32] ++ v ++ [13, 10]).length = n.length + 2 + v.length + 2 := by
      simp only [List.length_append, List.length_cons, List.length_nil]
    split_ifs at h1 with ha
    · have hi := line13 (fun b hb => ((hntc b hb).1 |> tcharOk_ne).1)
        (fun b hb => by have := (hvrange b hb).1; omega) h1
      split_ifs at h2 with hb
      · rw [hlen] at hb; omega
      · have hi2 : i + 2 - (n ++ [58, 32] ++ v ++ [13, 10]).length = 0 := by
          rw [hlen]; omega
        rw [hi2] at h2
        cases t with
        | nil => simp [headerLines] at h2
        | cons q t2 =>
          rcases q with ⟨n2, v2⟩
          have hgq := hg (n2, v2) (by simp)
          simp only [goodHeader, goodName, goodValue] at hgq
          obtain ⟨⟨hn2ne, hn2tc⟩, _⟩ := hgq
          have hshape : headerLines ((n2, v2) :: t2) =
              n2 ++ ([58, 32] ++ v2 ++ [13, 10] ++ headerLines t2) := by
            simp [headerLines]
          rw [hshape, List.getElem?_append] at h2
          cases n2 with
          | nil => exact hn2ne rfl
          | cons c m =>
            rw [if_pos (by simp)] at h2
            simp only [List.getElem?_cons_zero, Option.some.injEq] at h2
            exact ((hn2tc c (by simp)).1 |> tcharOk_ne).1 h2
    · split_ifs at h2 with hb
      · rw [hlen] at ha hb; omega
      · have hsh : i + 2 - (n ++ [58, 32] ++ v ++ [13, 10]).length =
            (i - (n ++ [58, 32] ++ v ++ [13, 10]).length) + 2 := by
          rw [hlen] at ha ⊢
          omega
        rw [hsh] at h2
        exact ih (fun q hq => hg q (by simp [hq])) _ h1 h2

/-- Serialized header lines of a nonempty collection are the core block plus
a final CRLF. -/
theorem hlCore_spec : ∀ {hs : HeaderMap}, hs ≠ [] →
    headerLines hs = hlCore hs ++ [13, 10] := by
  intro hs
  induction hs with
  | nil => intro h; exact absurd rfl h
  | cons p t ih =>
    rcases p with ⟨n, v⟩
    intro _
    cases t with
    | nil => simp [headerLines, hlCore]
    | cons q t2 =>
      rw [headerLines, hlCore, ih (by simp)]
      simp

/-- The part-header scan over a written header block stops exactly at the
blank line: it streams the core block and leaves the remainder. -/
theorem sut_hdrblock {hs : HeaderMap} (hne : hs ≠ [])
    (hgood : ∀ p ∈ hs, goodHeader p) (R : List Nat) :
    streamUntilToken [13, 10, 13, 10] (hlCore hs ++ [13, 10, 13, 10] ++ R) =
      ⟨hlCore hs, true, R⟩ := by
  apply sut_exact (hlCore hs) (by simp)
  intro i hi hp
  have hS : hlCore hs ++ [13, 10, 13, 10] ++ R =
      headerLines hs ++ ([13, 10] ++ R) := by
    rw [hlCore_spec hne]
    simp
  have hlen : (headerLines hs).length = (hlCore hs).length + 2 := by
    rw [hlCore_spec hne]
    simp
  obtain ⟨u, hu⟩ := hp
  have hj : ∀ j, j < 4 →
      (hlCore hs ++ [13, 10, 13, 10] ++ R)[i + j]? = [13, 10, 13, 10][j]? := by
    intro j hjl
    rw [← List.getElem?_drop, ← hu, List.getElem?_append, if_pos (by simpa using hjl)]
  have h0 := hj 0 (by omega)
  have h2 := hj 2 (by omega)
  rw [hS] at h0 h2
  rw [List.getElem?_append, if_pos (by omega)] at h0
  rw [List.getElem?_append, if_pos (by omega)] at h2
  exact hdrCR hs hgood i (by simpa using h0) (by simpa using h2)

/-! ## Header-block parse lemmas -/

/-- Leading-whitespace skipping leaves a good value intact after the single
space the writer emits. -/
theorem dropWhile_ws_value {v : List Nat} (hv : goodValue v) :
    (32 :: v).dropWhile (fun b => b == 32 || b == 9) = v := by
  obtain ⟨hvne, hvrange, hvhead, _⟩ := hv
  rw [List.dropWhile_cons, if_pos (by simp)]
  cases v with
  | nil => rfl
  | cons a t =>
    have ha : a ≠ 32 := fun hc => hvhead (by simp [hc])
    have ha9 : a ≠ 9 := by
      have := (hvrange a (by simp)).1
      omega
    rw [List.dropWhile_cons, if_neg (by simp [ha, ha9])]

/-- The low-level tokenizer parses a written header line back to its exact
name and value. -/
theorem phParseLine_written {n v : List Nat} (hn : goodName n) (hv : goodValue v) :
    phParseLine (n ++ [58, 32] ++ v ++ [13]) = .hdr n v := by
  obtain ⟨hnne, hntc⟩ := hn
  obtain ⟨hvne, hvrange, hvhead, hvlast⟩ := hv
  have hlast : (n ++ [58, 32] ++ v ++ [13]).getLast? = some 13 := by
    rw [List.getLast?_append]
    rfl
  have hdl : (n ++ [58, 32] ++ v ++ [13]).dropLast = n ++ [58, 32] ++ v :=
    List.dropLast_concat
  have hcore13 : (n ++ [58, 32] ++ v).any (fun b => b == 13) = false := by
    rw [Bool.eq_false_iff]
    intro hc
    obtain ⟨b, hb, hbe⟩ := List.any_eq_true.mp hc
    simp only [beq_iff_eq] at hbe
    subst hbe
    have h13 : (13 : Nat) ∈ n ∨ (13 : Nat) ∈ ([58, 32] : List Nat) ∨ (13 : Nat) ∈ v := by
      simpa [List.mem_append, or_assoc] using hb
    rcases h13 with hb' | hb' | hb'
    · exact (tcharOk_ne (hntc 13 hb').1).1 rfl
    · simp at hb'
    · have := (hvrange 13 hb').1
      omega
  have hcorene : n ++ [58, 32] ++ v ≠ [] := by
    simp [hnne]
  have hassoc : n ++ [58, 32] ++ v = n ++ (58 :: 32 :: v) := by simp
  have hname : (n ++ [58, 32] ++ v).takeWhile (fun b => b != 58) = n := by
    rw [hassoc]
    exact takeWhile_app (fun b hb => by simp [(tcharOk_ne (hntc b hb).1).2.2]) (by simp)
  have hrest : (n ++ [58, 32] ++ v).drop n.length = 58 :: 32 :: v := by
    rw [hassoc]
    exact List.drop_left n (58 :: 32 :: v)
  have hall : n.all tcharOk = true := List.all_eq_true.mpr (fun b hb => (hntc b hb).1)
  have hvall : v.all hvByteOk = true := List.all_eq_true.mpr (fun b hb => by
    have := hvrange b hb
    simp only [hvByteOk, Bool.or_eq_true, beq_iff_eq, Bool.and_eq_true, decide_eq_true_eq,
      bne_iff_ne]
    omega)
  simp only [phParseLine]
  rw [hlast]
  simp only [eq_self_iff_true, if_true]
  rw [hdl]
  simp only [hcore13, Bool.false_eq_true, if_false]
  simp only [hcorene, if_false]
  rw [hname, hrest]
  simp only [List.head?_cons, eq_self_iff_true, if_true]
  simp only [hnne, if_false]
  rw [hall]
  simp only [Bool.true_eq_false, if_false]
  simp only [List.drop_succ_cons, List.drop_zero]
  rw [dropWhile_ws_value ⟨hvne, hvrange, hvhead, hvlast⟩, hvall]
  simp only [eq_self_iff_true, if_true]

/-- One unfolding step of the low-level header tokenizer. -/
theorem phLoop_step (cap : Nat) (buf : List Nat) (acc : List (List Nat × List Nat)) :
    phLoop cap buf acc =
      match phSplitLine buf with
      | none => .incomplete
      | some (line, rest) =>
        match phParseLine line with
        | .blank => .complete acc
        | .bad => .failed false
        | .hdr n v =>
          match cap with
          | 0 => .failed tooManyHeaders
          | cap' + 1 => phLoop cap' rest (acc ++ [(n, v)]) := by
  rw [phLoop]

/-- The low-level tokenizer accepts a written header block: every line parses
back exactly, and the final blank line completes the block, provided the
header array has a slot per header. -/
theorem phLoop_written : ∀ (hs : HeaderMap), (∀ p ∈ hs, goodHeader p) →
    ∀ (acc : List (List Nat × List Nat)) (cap : Nat), hs.length ≤ cap →
    phLoop cap (headerLines hs ++ [13, 10]) acc = .complete (acc ++ hs) := by
  intro hs
  induction hs with
  | nil =>
    intro _ acc cap _
    rw [phLoop_step]
    simp [headerLines, phSplitLine, phParseLine]
  | cons p t ih =>
    rcases p with ⟨n, v⟩
    intro hg acc cap hcap
    have hgh := hg (n, v) (by simp)
    simp only [goodHeader] at hgh
    obtain ⟨hn, hv⟩ := hgh
    cases cap with
    | zero => simp at hcap
    | succ cap' =>
      have hbuf : headerLines ((n, v) :: t) ++ [13, 10] =
          (n ++ [58, 32] ++ v ++ [13]) ++ 10 :: (headerLines t ++ [13, 10]) := by
        simp [headerLines]
      have h10 : 10 ∉ n ++ [58, 32] ++ v ++ [13] := by
        intro hc
        have h10' : (10 : Nat) ∈ n ∨ (10 : Nat) ∈ ([58, 32] : List Nat) ∨
            (10 : Nat) ∈ v ∨ (10 : Nat) ∈ ([13] : List Nat) := by
          simpa [List.mem_append, or_assoc] using hc
        rcases h10' with hb | hb | hb | hb
        · exact (tcharOk_ne ((hn.2) 10 hb).1).2.1 rfl
        · simp at hb
        · have := (hv.2.1 10 hb).1; omega
        · simp at hb
      rw [hbuf, phLoop_step, phSplitLine_app h10]
      simp only [phParseLine_written hn hv]
      rw [ih (fun q hq => hg q (by simp [hq])) (acc ++ [(n, v)]) cap' (by simpa using hcap)]
      simp

/-- The header-collection loop keeps every good raw header unchanged. -/
theorem buildHeadersGo_written : ∀ (hs : HeaderMap) (acc : HeaderMap),
    (∀ p ∈ hs, goodHeader p) → buildHeadersGo acc hs = .ok (acc ++ hs) := by
  intro hs
  induction hs with
  | nil => intro acc _; simp [buildHeadersGo]
  | cons p t ih =>
    rcases p with ⟨n, v⟩
    intro acc hg
    have hgh := hg (n, v) (by simp)
    simp only [goodHeader, goodName, goodValue] at hgh
    obtain ⟨⟨hnne, hntc⟩, hvne, hvrange, hvhead, hvlast⟩ := hgh
    have hhv : hvOk v = true := by
      unfold hvOk
      exact List.all_eq_true.mpr (fun b hb => by
        have := hvrange b hb
        simp only [hvByteOk, Bool.or_eq_true, beq_iff_eq, Bool.and_eq_true,
          decide_eq_true_eq, bne_iff_ne]
        omega)
    have hhn : hnOk n = true := by
      unfold hnOk
      rw [Bool.and_eq_true]
      exact ⟨by simpa using hnne, List.all_eq_true.mpr (fun b hb => (hntc b hb).1)⟩
    rw [buildHeadersGo, if_neg hvne, trimTrailSp_noop hvlast]
    simp only [hhv, hhn, Bool.true_eq_false, if_false]
    rw [lowerBytes_noop (fun b hb => (hntc b hb).2)]
    rw [ih (acc ++ [(n, v)]) (fun q hq => hg q (by simp [hq]))]
    simp

/-- Full header-block parse of a written block recovers the exact headers,
provided capacity suffices. -/
theorem phRun_written {hs : HeaderMap} (hg : ∀ p ∈ hs, goodHeader p)
    {cap : Nat} (hcap : hs.length ≤ cap) :
    phRun (headerLines hs ++ [13, 10]) cap = .ok hs := by
  rw [phRun, phLoop_written hs hg [] cap hcap]
  simpa using buildHeadersGo_written hs [] hg

/-- A completed low-level parse extends the accumulator. -/
theorem phLoop_acc_le : ∀ (n : Nat) (buf : List Nat) (acc raws : List (List Nat × List Nat)),
    phLoop n buf acc = .complete raws → acc.length ≤ raws.length := by
  intro n
  induction n with
  | zero =>
    intro buf acc raws h
    rw [phLoop_step] at h
    rcases hsp : phSplitLine buf with _ | ⟨line, rest⟩
    · simp [hsp] at h
    · rcases hpl : phParseLine line with _ | ⟨nm, vl⟩ | _
      · simp only [hsp, hpl, HttparseOut.complete.injEq] at h
        subst h
        exact Nat.le_refl _
      · simp [hsp, hpl] at h
      · simp [hsp, hpl] at h
  | succ n' ih =>
    intro buf acc raws h
    rw [phLoop_step] at h
    rcases hsp : phSplitLine buf with _ | ⟨line, rest⟩
    · simp [hsp] at h
    · rcases hpl : phParseLine line with _ | ⟨nm, vl⟩ | _
      · simp only [hsp, hpl, HttparseOut.complete.injEq] at h
        subst h
        exact Nat.le_refl _
      · simp only [hsp, hpl] at h
        have hrec := ih rest (acc ++ [(nm, vl)]) raws h
        simp only [List.length_append, List.length_cons, List.length_nil] at hrec
        omega
      · simp [hsp, hpl] at h

/-- With fewer slots than headers present, the low-level parse fails with
`TooManyHeaders`. -/
theorem phLoop_over : ∀ (n : Nat) (buf : List Nat) (acc raws : List (List Nat × List Nat))
    (m : Nat), phLoop n buf acc = .complete raws → acc.length + m < raws.length →
    phLoop m buf acc = .failed tooManyHeaders := by
  intro n
  induction n with
  | zero =>
    intro buf acc raws m h hlt
    rw [phLoop_step] at h
    rcases hsp : phSplitLine buf with _ | ⟨line, rest⟩
    · simp [hsp] at h
    · rcases hpl : phParseLine line with _ | ⟨nm, vl⟩ | _
      · simp only [hsp, hpl, HttparseOut.complete.injEq] at h
        subst h
        omega
      · simp [hsp, hpl] at h
      · simp [hsp, hpl] at h
  | succ n' ih =>
    intro buf acc raws m h hlt
    rw [phLoop_step] at h
    rcases hsp : phSplitLine buf with _ | ⟨line, rest⟩
    · simp [hsp] at h
    · rcases hpl : phParseLine line with _ | ⟨nm, vl⟩ | _
      · simp only [hsp, hpl, HttparseOut.complete.injEq] at h
        subst h
        omega
      · simp only [hsp, hpl] at h
        cases m with
        | zero =>
          rw [phLoop_step]
          simp only [hsp, hpl]
        | succ m' =>
          rw [phLoop_step]
          simp only [hsp, hpl]
          refine ih rest (acc ++ [(nm, vl)]) raws m' h ?_
          simp only [List.length_append, List.length_cons, List.length_nil]
          omega
      · simp [hsp, hpl] at h

/-- With a slot per header present, enlarging the array does not change a
completed parse. -/
theorem phLoop_mono : ∀ (n : Nat) (buf : List Nat) (acc raws : List (List Nat × List Nat))
    (m : Nat), phLoop n buf acc = .complete raws → raws.length ≤ acc.length + m →
    phLoop m buf acc = .complete raws := by
  intro n
  induction n with
  | zero =>
    intro buf acc raws m h hle
    rw [phLoop_step] at h
    rcases hsp : phSplitLine buf with _ | ⟨line, rest⟩
    · simp [hsp] at h
    · rcases hpl : phParseLine line with _ | ⟨nm, vl⟩ | _
      · simp only [hsp, hpl, HttparseOut.complete.injEq] at h
        subst h
        rw [phLoop_step]
        simp only [hsp, hpl]
      · simp [hsp, hpl] at h
      · simp [hsp, hpl] at h
  | succ n' ih =>
    intro buf acc raws m h hle
    rw [phLoop_step] at h
    rcases hsp : phSplitLine buf with _ | ⟨line, rest⟩
    · simp [hsp] at h
    · rcases hpl : phParseLine line with _ | ⟨nm, vl⟩ | _
      · simp only [hsp, hpl, HttparseOut.complete.injEq] at h
        subst h
        rw [phLoop_step]
        simp only [hsp, hpl]
      · simp only [hsp, hpl] at h
        have hlen := phLoop_acc_le n' rest (acc ++ [(nm, vl)]) raws h
        simp only [List.length_append, List.length_cons, List.length_nil] at hlen
        cases m with
        | zero => omega
        | succ m' =>
          rw [phLoop_step]
          simp only [hsp, hpl]
          refine ih rest (acc ++ [(nm, vl)]) raws m' h ?_
          simp only [List.length_append, List.length_cons, List.length_nil]
          omega
      · simp [hsp, hpl] at h

/-! ## Writer lemmas -/

/-- The writer's accumulated header byte count equals the length of the
serialized header lines. -/
theorem hdrCount_eq : ∀ (h : HeaderMap), hdrCount h = (headerLines h).length := by
  intro h
  induction h with
  | nil => rfl
  | cons p t ih =>
    rcases p with ⟨n, v⟩
    simp only [hdrCount, headerLines, ih, List.length_append, List.length_cons,
      List.length_nil]

/-- A successful write returns exactly the number of bytes emitted, and the
output ends with the closing marker `--boundary--`. -/
theorem write_multipart_spec : ∀ (b : List Nat) (ns : List Node) {o : List Nat} {c : Nat},
    write_multipart b ns = .ok (o, c) →
    c = o.length ∧ ∃ pre, o = pre ++ [45, 45] ++ b ++ [45, 45] := by
  intro b ns
  induction b, ns using write_multipart.induct with
  | case1 b =>
    intro o c h
    rw [write_multipart] at h
    simp only [Except.ok.injEq, Prod.mk.injEq] at h
    obtain ⟨ho, hc⟩ := h
    constructor
    · rw [← ho, ← hc]
      simp only [List.length_append, List.length_cons, List.length_nil]
    · exact ⟨[], by rw [← ho]; simp⟩
  | case2 b hd body rest e hw ih =>
    intro o c h
    rw [write_multipart] at h
    simp [hw] at h
  | case3 b hd body rest o' c' hw ih =>
    intro o c h
    rw [write_multipart] at h
    simp only [hw, Except.ok.injEq, Prod.mk.injEq] at h
    obtain ⟨ho, hc⟩ := h
    obtain ⟨hcl, pre', hpre⟩ := ih hw
    constructor
    · rw [← ho, ← hc]
      simp only [List.length_append, List.length_cons, List.length_nil, hcl, hdrCount_eq]
      omega
    · refine ⟨[45, 45] ++ b ++ [13, 10] ++ headerLines hd ++ [13, 10] ++ body ++ [13, 10]
        ++ pre', ?_⟩
      rw [← ho, hpre]
      simp
  | case4 b hd content size rest e hw ih =>
    intro o c h
    rw [write_multipart] at h
    simp [hw] at h
  | case5 b hd content size rest o' c' hw ih =>
    intro o c h
    rw [write_multipart] at h
    simp only [hw, Except.ok.injEq, Prod.mk.injEq] at h
    obtain ⟨ho, hc⟩ := h
    obtain ⟨hcl, pre', hpre⟩ := ih hw
    constructor
    · rw [← ho, ← hc]
      simp only [List.length_append, List.length_cons, List.length_nil, hcl, hdrCount_eq]
      omega
    · refine ⟨[45, 45] ++ b ++ [13, 10] ++ headerLines hd ++ [13, 10] ++ content ++ [13, 10]
        ++ pre', ?_⟩
      rw [← ho, hpre]
      simp
  | case6 b hd children rest e hb =>
    intro o c h
    rw [write_multipart] at h
    simp [hb] at h
  | case7 b hd children rest b2 hb e hw ihc =>
    intro o c h
    rw [write_multipart] at h
    simp [hb, hw] at h
  | case8 b hd children rest b2 hb oc cc hwc e hw ihc ih =>
    intro o c h
    rw [write_multipart] at h
    simp [hb, hwc, hw] at h
  | case9 b hd children rest b2 hb oc cc hwc o' c' hw ihc ih =>
    intro o c h
    rw [write_multipart] at h
    simp only [hb, hwc, hw, Except.ok.injEq, Prod.mk.injEq] at h
    obtain ⟨ho, hc⟩ := h
    obtain ⟨hccl, prec, hprec⟩ := ihc hwc
    obtain ⟨hcl, pre', hpre⟩ := ih hw
    constructor
    · rw [← ho, ← hc]
      simp only [List.length_append, List.length_cons, List.length_nil, hcl, hccl,
        hdrCount_eq]
      omega
    · refine ⟨[45, 45] ++ b ++ [13, 10] ++ headerLines hd ++ [13, 10] ++ oc ++ [13, 10]
        ++ pre', ?_⟩
      rw [← ho, hpre]
      simp

/-! ## Part-loop lemmas -/

/-- Size correctness distributes over appending one node. -/
theorem fileSizeOkBs_append (a : List Node) (n : Node) :
    fileSizeOkBs (a ++ [n]) = (fileSizeOkBs a && fileSizeOkB n) := by
  induction a with
  | nil => simp [fileSizeOkBs]
  | cons x t ih => simp [fileSizeOkBs, ih, Bool.and_assoc]

/-- Every node list the part loop returns has correct file sizes: each file
node's `size` is exactly the byte count the scanner streamed to its file,
recursively through nested containers. -/
theorem partLoopF_sizes : ∀ (fuel : Nat) (auf : Bool) (b lt : List Nat) (acc : List Node)
    (s : List Nat) {ns : List Node} {r : List Nat},
    partLoopF fuel auf b lt acc s = some (.ok (ns, r)) →
    fileSizeOkBs acc = true → fileSizeOkBs ns = true := by
  intro fuel
  induction fuel with
  | zero =>
    intro auf b lt acc s ns r h _
    simp [partLoopF] at h
  | succ fuel ih =>
    intro auf b lt acc s ns r h hacc
    rw [partLoopF] at h
    simp only [] at h
    split at h
    · simp only [Option.some.injEq, Except.ok.injEq, Prod.mk.injEq] at h
      obtain ⟨hn, _⟩ := h
      rw [← hn]
      exact hacc
    · split at h
      · simp at h
      · split at h
        · simp at h
        · split at h
          · simp at h
          · split at h
            · simp at h
            · -- nested container
              split at h
              · simp at h
              · split at h
                · simp at h
                · simp at h
                · rename_i ph hph hnested b2lt2s2 hpre children s3 hrec
                  exact ih _ _ _ _ _ h (by
                    rw [fileSizeOkBs_append, hacc]
                    simp only [fileSizeOkB, Bool.true_and]
                    exact ih _ _ _ _ _ hrec rfl)
            · -- leaf part
              split at h
              · simp at h
              · split at h
                · simp at h
                · exact ih _ _ _ _ _ h (by
                    rw [fileSizeOkBs_append, hacc]
                    simp [fileSizeOkB])
              · split at h
                · simp at h
                · exact ih _ _ _ _ _ h (by
                    rw [fileSizeOkBs_append, hacc]
                    simp [fileSizeOkB])

/-- Round trip of the part loop: parsing the written stream of good in-memory
parts appends exactly those parts and stops at the closing `--`. -/
theorem partLoopF_roundtrip : ∀ (ns : List Node) (bval : List Nat) (acc : List Node),
    (∀ b ∈ bval, b ≠ 13) →
    (∀ n ∈ ns, goodPart ([45, 45] ++ bval) n) →
    partLoopF (ns.length + 1) false ([45, 45] ++ bval) [13, 10] acc
      (streamFrom ([45, 45] ++ bval) ns) = some (.ok (acc ++ ns, [45, 45])) := by
  intro ns
  induction ns with
  | nil =>
    intro bval acc hbv hgood
    simp [streamFrom, partLoopF]
  | cons nd rest ih =>
    intro bval acc hbv hgood
    have hg := hgood nd (by simp)
    rcases nd with ⟨h, body⟩ | ⟨h, c, sz⟩ | ⟨h, ch⟩
    rotate_left
    · simp [goodPart] at hg
    · simp [goodPart] at hg
    simp only [goodPart] at hg
    obtain ⟨hne, hlen4, hgh, hnested, hisfile, hbody⟩ := hg
    have hstream : streamFrom ([45, 45] ++ bval) (Node.part h body :: rest) =
        [13, 10] ++ (headerLines h ++ [13, 10] ++ body ++ [13, 10] ++ ([45, 45] ++ bval) ++
          streamFrom ([45, 45] ++ bval) rest) := by
      rw [streamFrom]
      simp
    have hpeek : ¬ (2 ≤ (streamFrom ([45, 45] ++ bval) (Node.part h body :: rest)).length ∧
        (streamFrom ([45, 45] ++ bval) (Node.part h body :: rest)).take 2 = [45, 45]) := by
      rintro ⟨-, hc⟩
      rw [hstream] at hc
      simp [List.take_append_eq_append_take] at hc
    have h1 : streamUntilToken [13, 10]
        (streamFrom ([45, 45] ++ bval) (Node.part h body :: rest)) =
        ⟨[], true, headerLines h ++ [13, 10] ++ body ++ [13, 10] ++ ([45, 45] ++ bval) ++
          streamFrom ([45, 45] ++ bval) rest⟩ := by
      rw [hstream, sut_pref (by simp) (List.prefix_append _ _), List.drop_left]
    have hA : headerLines h ++ [13, 10] ++ body ++ [13, 10] ++ ([45, 45] ++ bval) ++
        streamFrom ([45, 45] ++ bval) rest =
        hlCore h ++ [13, 10, 13, 10] ++ (body ++ [13, 10] ++ ([45, 45] ++ bval) ++
          streamFrom ([45, 45] ++ bval) rest) := by
      rw [hlCore_spec hne]
      simp
    have h2 : streamUntilToken ([13, 10] ++ [13, 10])
        (headerLines h ++ [13, 10] ++ body ++ [13, 10] ++ ([45, 45] ++ bval) ++
          streamFrom ([45, 45] ++ bval) rest) =
        ⟨hlCore h, true, body ++ [13, 10] ++ ([45, 45] ++ bval) ++
          streamFrom ([45, 45] ++ bval) rest⟩ := by
      show streamUntilToken [13, 10, 13, 10] _ = _
      rw [hA]
      exact sut_hdrblock hne hgh _
    have hpb : hlCore h ++ ([13, 10] ++ [13, 10]) = headerLines h ++ [13, 10] := by
      rw [hlCore_spec hne]
      simp
    have hphr : phRun (hlCore h ++ ([13, 10] ++ [13, 10])) 4 = .ok h := by
      rw [hpb]
      exact phRun_written hgh hlen4
    have e1 : ([13, 10] : List Nat) ++ ([45, 45] ++ bval) = 13 :: 10 :: 45 :: 45 :: bval := by
      simp
    have h3 : streamUntilToken ([13, 10] ++ ([45, 45] ++ bval))
        (body ++ [13, 10] ++ ([45, 45] ++ bval) ++ streamFrom ([45, 45] ++ bval) rest) =
        ⟨body, true, streamFrom ([45, 45] ++ bval) rest⟩ := by
      have e2 : body ++ [13, 10] ++ ([45, 45] ++ bval) ++
          streamFrom ([45, 45] ++ bval) rest =
          body ++ (13 :: 10 :: 45 :: 45 :: bval) ++ streamFrom ([45, 45] ++ bval) rest := by
        simp
      rw [e1, e2]
      apply sut_head13
      · intro hm
        simp only [List.mem_cons] at hm
        rcases hm with h' | h' | h' | h'
        · omega
        · omega
        · omega
        · exact hbv 13 h' rfl
      · intro hinf
        have := containsSeq_iff.mpr hinf
        rw [e1] at hbody
        rw [hbody] at this
        exact Bool.false_ne_true this
    simp only [List.length_cons]
    rw [partLoopF]
    simp only [h1, h2, h3, hphr, hnested, hisfile, hpeek, if_false, Bool.true_eq_false,
      Option.some.injEq]
    rw [ih bval (acc ++ [Node.part h body]) hbv (fun q hq => hgood q (by simp [hq]))]
    simp

/-- Shape of a written sequence of good in-memory parts: the first boundary
token followed by the per-part stream. -/
theorem write_parts : ∀ (ns : List Node) (bval : List Nat),
    (∀ n ∈ ns, goodPart ([45, 45] ++ bval) n) →
    ∃ c, write_multipart bval ns =
      .ok (([45, 45] ++ bval) ++ streamFrom ([45, 45] ++ bval) ns, c) := by
  intro ns
  induction ns with
  | nil =>
    intro bval _
    exact ⟨_, by rw [write_multipart, streamFrom]⟩
  | cons nd rest ih =>
    intro bval hgood
    have hg := hgood nd (by simp)
    rcases nd with ⟨h, body⟩ | ⟨h, c0, sz⟩ | ⟨h, ch⟩
    rotate_left
    · simp [goodPart] at hg
    · simp [goodPart] at hg
    obtain ⟨c', hc'⟩ := ih bval (fun q hq => hgood q (by simp [hq]))
    refine ⟨2 + bval.length + 2 + (hdrCount h + 2) + (body.length + 2) + c', ?_⟩
    rw [write_multipart, hc', streamFrom]
    simp [List.append_assoc]

/-- The header-collection loop ignores everything after an empty-valued raw
header, regardless of the accumulator. -/
theorem buildHeadersGo_stop : ∀ (pre : List (List Nat × List Nat)) (acc : HeaderMap)
    (n : List Nat) (post : List (List Nat × List Nat)),
    buildHeadersGo acc (pre ++ (n, []) :: post) = buildHeadersGo acc pre := by
  intro pre
  induction pre with
  | nil =>
    intro acc n post
    simp [buildHeadersGo]
  | cons p t ih =>
    rcases p with ⟨n1, v1⟩
    intro acc n post
    by_cases hv : v1 = []
    · simp [buildHeadersGo, hv]
    · rw [List.cons_append, buildHeadersGo, buildHeadersGo, if_neg hv, if_neg hv]
      split_ifs <;> simp [ih]

/-! ## Claims -/

/-- C5: boundary extraction (`get_multipart_boundary`) fails with three
distinct errors — `NoRequestContentType` when no `content-type` header is
present, `NotMultipart` when the parsed MIME top-level type is not
`multipart`, `BoundaryNotSpecified` when a multipart content-type lacks a
`boundary` parameter — and otherwise returns the token `--` + the boundary
parameter's value. -/
theorem c5_boundary_extraction :
    (∀ h : HeaderMap, hmGet h (bs "content-type") = none →
      get_multipart_boundary h = .error .NoRequestContentType) ∧
    (∀ (h : HeaderMap) (ct s : List Nat) (m : MimeTy),
      hmGet h (bs "content-type") = some ct → toStr ct = some s →
      parseMime s = some m → m.top ≠ bs "multipart" →
      get_multipart_boundary h = .error .NotMultipart) ∧
    (∀ (h : HeaderMap) (ct s : List Nat) (m : MimeTy),
      hmGet h (bs "content-type") = some ct → toStr ct = some s →
      parseMime s = some m → m.top = bs "multipart" →
      mimeGetParam m (bs "boundary") = none →
      get_multipart_boundary h = .error .BoundaryNotSpecified) ∧
    (∀ (h : HeaderMap) (ct s : List Nat) (m : MimeTy) (v : List Nat),
      hmGet h (bs "content-type") = some ct → toStr ct = some s →
      parseMime s = some m → m.top = bs "multipart" →
      mimeGetParam m (bs "boundary") = some v →
      get_multipart_boundary h = .ok (bs "--" ++ v)) ∧
    (Err.NoRequestContentType ≠ Err.NotMultipart ∧
      Err.NoRequestContentType ≠ Err.BoundaryNotSpecified ∧
      Err.NotMultipart ≠ Err.BoundaryNotSpecified) := by
  refine ⟨?_, ?_, ?_, ?_, by decide, by decide, by decide⟩
  · intro h hg
    simp only [get_multipart_boundary, hg]
  · intro h ct s m hg ht hp hne
    simp only [get_multipart_boundary, hg, ht, hp]
    rw [if_pos hne]
  · intro h ct s m hg ht hp htop hgp
    simp only [get_multipart_boundary, hg, ht, hp, hgp]
    rw [if_neg (not_not_intro htop)]
  · intro h ct s m v hg ht hp htop hgp
    simp only [get_multipart_boundary, hg, ht, hp, hgp]
    rw [if_neg (not_not_intro htop)]
    rfl

/-- C5 witness: the four outcomes at concrete header collections. -/
theorem c5_boundary_extraction_witness :
    get_multipart_boundary [] = .error .NoRequestContentType ∧
    get_multipart_boundary [(bs "content-type", bs "text/plain")] = .error .NotMultipart ∧
    get_multipart_boundary [(bs "content-type", bs "multipart/mixed")] =
      .error .BoundaryNotSpecified ∧
    get_multipart_boundary [(bs "content-type", bs "multipart/mixed; boundary=xyz")] =
      .ok (bs "--" ++ bs "xyz") := by
  refine ⟨c5_boundary_extraction.1 [] rfl,
    c5_boundary_extraction.2.1 _ (bs "text/plain") (bs "text/plain")
      ⟨bs "text", bs "plain", []⟩ rfl rfl (by rfl) (by decide),
    c5_boundary_extraction.2.2.1 _ (bs "multipart/mixed") (bs "multipart/mixed")
      ⟨bs "multipart", bs "mixed", []⟩ rfl rfl (by rfl) rfl rfl,
    c5_boundary_extraction.2.2.2.1 _ (bs "multipart/mixed; boundary=xyz")
      (bs "multipart/mixed; boundary=xyz")
      ⟨bs "multipart", bs "mixed", [(bs "boundary", bs "xyz")]⟩ (bs "xyz")
      rfl rfl (by rfl) rfl rfl⟩

/-- C6: when the header-collection loop meets a raw header with an empty
value, it stops there: headers before it are kept, every later raw header is
ignored, and no error is raised for the remainder — at both parse sites,
since `phRun` (the outer 64-slot block of `read_multipart` and the 4-slot
part blocks of `inner`) builds its collection with `buildHeaders`. -/
theorem c6_empty_value_stops : ∀ (pre : List (List Nat × List Nat)) (n : List Nat)
    (post : List (List Nat × List Nat)),
    buildHeaders (pre ++ (n, []) :: post) = buildHeaders pre := by
  intro pre n post
  exact buildHeadersGo_stop pre [] n post

/-- C7: a successful `write_multipart` returns exactly the number of bytes
it wrote, and the written output ends with the closing marker
`--boundary--`, with nothing after it. -/
theorem c7_write_count_and_close : ∀ (b : List Nat) (ns : List Node) (o : List Nat) (c : Nat),
    write_multipart b ns = .ok (o, c) →
    c = o.length ∧ ∃ pre, o = pre ++ [45, 45] ++ b ++ [45, 45] := by
  intro b ns o c h
  exact write_multipart_spec b ns h

/-- C7 witness: writing one in-memory part under boundary `b` returns count
48, the length of the produced bytes, which end in `--b--`. -/
theorem c7_write_count_and_close_witness :
    48 = (bs "--b\r\ncontent-disposition: attachment\r\n\r\nx\r\n--b--").length ∧
    ∃ pre, bs "--b\r\ncontent-disposition: attachment\r\n\r\nx\r\n--b--" =
      pre ++ [45, 45] ++ [98] ++ [45, 45] := by
  exact c7_write_count_and_close [98]
    [.part [(bs "content-disposition", bs "attachment")] (bs "x")] _ 48
    (by simp [write_multipart, bs, headerLines, hdrCount])

/-- C9: the file-vs-memory tests of `inner` are case-sensitive byte
substring matches on the `content-disposition` value: any part whose value
contains neither the exact lowercase `attachment` nor the exact lowercase
`filename` is classified in-memory when `always_use_files` is false; in
particular the value `Attachment` (capital A, no filename parameter)
contains neither, and such a part parses to an in-memory `Part` node. -/
theorem c9_case_sensitive :
    (∀ (h : HeaderMap) (cd s : List Nat),
      hmGet h (bs "content-disposition") = some cd → toStr cd = some s →
      containsSeq (bs "attachment") s = false → containsSeq (bs "filename") s = false →
      checkIsFile false h = .ok false) ∧
    (containsSeq (bs "attachment") (bs "Attachment") = false ∧
      containsSeq (bs "filename") (bs "Attachment") = false) ∧
    read_multipart_body 2 [(bs "content-type", bs "multipart/mixed; boundary=b")] false
      (bs "--b\r\ncontent-disposition: Attachment\r\n\r\nx\r\n--b--")
      = some (.ok [.part [(bs "content-disposition", bs "Attachment")] (bs "x")]) := by
  refine ⟨?_, ⟨by decide, by decide⟩, by rfl⟩
  intro h cd s hg ht ha hf
  simp only [checkIsFile, Bool.false_eq_true, if_false, hg, ht, ha, hf, Bool.or_self]

/-- C9 witness: a part headed `content-disposition: Attachment` is
classified in-memory with the flag off. -/
theorem c9_case_sensitive_witness :
    checkIsFile false [(bs "content-disposition", bs "Attachment")] = .ok false :=
  c9_case_sensitive.1 _ (bs "Attachment") (bs "Attachment") rfl rfl (by decide) (by decide)

/-- C8: the part loop returns upon peeking a closing `--` without consuming
those two bytes, so after a nested container's recursion returns at its own
closing `--`, the enclosing loop's next peek sees the same bytes and the
enclosing container also terminates there; consequently sibling parts that
follow a nested multipart container under the enclosing boundary are
silently omitted, as the concrete parse shows. -/
theorem c8_nested_terminates_enclosing :
    (∀ (fuel : Nat) (auf : Bool) (b lt : List Nat) (acc : List Node) (s : List Nat),
      2 ≤ s.length → s.take 2 = [45, 45] →
      partLoopF (fuel + 1) auf b lt acc s = some (.ok (acc, s))) ∧
    read_multipart_body 4 [(bs "content-type", bs "multipart/mixed; boundary=b")] false
      (bs "--b\r\ncontent-type: multipart/x; boundary=c\r\n\r\n--c\r\na: x\r\n\r\nz\r\n--c--\r\n--b\r\na: y\r\n\r\nw\r\n--b--")
      = some (.ok [.multipart [(bs "content-type", bs "multipart/x; boundary=c")]
          [.part [(bs "a", bs "x")] (bs "z")]]) := by
  refine ⟨?_, by rfl⟩
  intro fuel auf b lt acc s h1 h2
  rw [partLoopF, if_pos ⟨h1, h2⟩]

/-- C8 witness: at a stream beginning with `--`, the loop returns its
accumulated nodes and leaves the stream untouched. -/
theorem c8_nested_terminates_enclosing_witness :
    partLoopF 1 false [45, 45, 98] [13, 10] [] [45, 45, 13, 10] =
      some (.ok ([], [45, 45, 13, 10])) :=
  c8_nested_terminates_enclosing.1 0 false [45, 45, 98] [13, 10] [] [45, 45, 13, 10]
    (by decide) (by decide)

/-- C10: part header blocks are parsed into a 4-slot array while the outer
block of `read_multipart` gets 64 slots — a part block with more than 4
header lines before the blank line fails with the `TooManyHeaders`
`Httparse` error rather than succeeding or dropping headers, while the same
five header lines are accepted in the outer block. -/
theorem c10_header_capacity :
    (∀ (block : List Nat) (n : Nat) (raws : List (List Nat × List Nat)),
      phLoop n block [] = .complete raws → 4 < raws.length →
      phRun block 4 = .error (.Httparse tooManyHeaders)) ∧
    (∀ (block : List Nat) (n : Nat) (raws : List (List Nat × List Nat)),
      phLoop n block [] = .complete raws → raws.length ≤ 64 →
      phRun block 64 = buildHeaders raws) ∧
    read_multipart_body 2 [(bs "content-type", bs "multipart/mixed; boundary=b")] false
      (bs "--b\r\nh1: a\r\nh2: a\r\nh3: a\r\nh4: a\r\nh5: a\r\n\r\nx\r\n--b--")
      = some (.error (.Httparse tooManyHeaders)) ∧
    read_multipart 2 false
      (bs "content-type: multipart/mixed; boundary=b\r\nh1: a\r\nh2: a\r\nh3: a\r\nh4: a\r\nh5: a\r\n\r\n--b\r\na: x\r\n\r\nz\r\n--b--")
      = some (.ok [.part [(bs "a", bs "x")] (bs "z")]) := by
  refine ⟨?_, ?_, by rfl, by rfl⟩
  · intro block n raws h hlt
    have hover := phLoop_over n block [] raws 4 h (by simpa using hlt)
    rw [phRun, hover]
  · intro block n raws h hle
    have hmono := phLoop_mono n block [] raws 64 h (by simpa using hle)
    rw [phRun, hmono]

/-- C10 witness: a concrete 5-header block completes with 64 slots but fails
with `TooManyHeaders` at the part capacity of 4. -/
theorem c10_header_capacity_witness :
    phRun (bs "h1: a\r\nh2: a\r\nh3: a\r\nh4: a\r\nh5: a\r\n\r\n") 4 =
      .error (.Httparse tooManyHeaders) ∧
    phRun (bs "h1: a\r\nh2: a\r\nh3: a\r\nh4: a\r\nh5: a\r\n\r\n") 64 =
      buildHeaders [(bs "h1", bs "a"), (bs "h2", bs "a"), (bs "h3", bs "a"),
        (bs "h4", bs "a"), (bs "h5", bs "a")] := by
  constructor
  · exact c10_header_capacity.1 _ 5
      [(bs "h1", bs "a"), (bs "h2", bs "a"), (bs "h3", bs "a"),
        (bs "h4", bs "a"), (bs "h5", bs "a")] (by rfl) (by decide)
  · exact c10_header_capacity.2.1 _ 5
      [(bs "h1", bs "a"), (bs "h2", bs "a"), (bs "h3", bs "a"),
        (bs "h4", bs "a"), (bs "h5", bs "a")] (by rfl) (by decide)

/-- C4: every `File` node a parse produces records as its `size` exactly the
number of bytes the scanner streamed to its file, recursively through nested
containers; and a found scan splits its source as streamed-bytes ++ token ++
remainder, so the terminating inter-boundary token is excluded from the
streamed bytes and from the recorded size. -/
theorem c4_file_sizes :
    (∀ (fuel : Nat) (hdrs : HeaderMap) (auf : Bool) (s : List Nat)
      (ns : List Node) (r : List Nat),
      innerF fuel hdrs auf s = some (.ok (ns, r)) → fileSizeOkBs ns = true) ∧
    (∀ (tok s out rest : List Nat), streamUntilToken tok s = ⟨out, true, rest⟩ →
      s = out ++ tok ++ rest) := by
  constructor
  · intro fuel hdrs auf s ns r h
    rw [innerF] at h
    rcases hp : innerPre hdrs s with e | ⟨b, lt, s'⟩ <;> rw [hp] at h
    · simp at h
    · simp only [] at h
      exact partLoopF_sizes fuel auf b lt [] s' h (by simp [fileSizeOkBs])
  · intro tok s out rest h
    exact sut_split tok h

/-- C4 witness: the concrete 5-byte attachment part gets `size = some 5`,
the length of the bytes streamed to its file. -/
theorem c4_file_sizes_witness :
    fileSizeOkBs [.file [(bs "content-disposition", bs "attachment")]
      (bs "hello") (some 5)] = true :=
  c4_file_sizes.1 2 [(bs "content-type", bs "multipart/mixed; boundary=b")] false
    (bs "--b\r\ncontent-disposition: attachment\r\n\r\nhello\r\n--b--")
    [.file [(bs "content-disposition", bs "attachment")] (bs "hello") (some 5)]
    [45, 45] (by rfl)

/-- C3: the line-terminator convention is decided exactly once, from the two
bytes after the first boundary occurrence: CRLF selects the 2-byte CRLF
terminator (4-byte header-block terminator), a leading bare LF selects the
1-byte LF terminator (2-byte header-block terminator), anything else fails
with `NoCrLfAfterBoundary`; the chosen terminator is handed once to the part
loop and so governs every subsequent part of the call, even when the outer
request headers used CRLF, as the concrete full-stream parse shows. -/
theorem c3_terminator_sniff :
    (∀ (hdrs : HeaderMap) (auf : Bool) (s b o r : List Nat) (fuel : Nat),
      get_multipart_boundary hdrs = .ok b →
      streamUntilToken b s = ⟨o, true, 13 :: 10 :: r⟩ →
      innerF fuel hdrs auf s = partLoopF fuel auf b [13, 10] [] (13 :: 10 :: r)) ∧
    (([13, 10] : List Nat).length = 2 ∧ (([13, 10] : List Nat) ++ [13, 10]).length = 4) ∧
    (∀ (hdrs : HeaderMap) (auf : Bool) (s b o r : List Nat) (fuel : Nat),
      get_multipart_boundary hdrs = .ok b →
      streamUntilToken b s = ⟨o, true, 10 :: r⟩ →
      innerF fuel hdrs auf s = partLoopF fuel auf b [10] [] (10 :: r)) ∧
    (([10] : List Nat).length = 1 ∧ (([10] : List Nat) ++ [10]).length = 2) ∧
    (∀ (hdrs : HeaderMap) (auf : Bool) (s b o r : List Nat) (fuel : Nat),
      get_multipart_boundary hdrs = .ok b →
      streamUntilToken b s = ⟨o, true, r⟩ →
      ¬ (2 ≤ r.length ∧ r.take 2 = [13, 10]) → r.head? ≠ some 10 →
      innerF fuel hdrs auf s = some (.error .NoCrLfAfterBoundary)) ∧
    read_multipart 3 false
      (bs "content-type: multipart/mixed; boundary=b\r\n\r\n--b\nh: v\n\nx\n--b\nh2: w\n\ny\n--b--")
      = some (.ok [.part [(bs "h", bs "v")] (bs "x"),
          .part [(bs "h2", bs "w")] (bs "y")]) := by
  refine ⟨?_, ⟨rfl, rfl⟩, ?_, ⟨rfl, rfl⟩, ?_, by rfl⟩
  · intro hdrs auf s b o r fuel hb hsut
    rw [innerF, innerPre, hb]
    simp only [hsut, Bool.true_eq_false, if_false]
    rw [sniff, if_pos (show 2 ≤ (13 :: 10 :: r).length ∧
      (13 :: 10 :: r).take 2 = [13, 10] by simp)]
  · intro hdrs auf s b o r fuel hb hsut
    rw [innerF, innerPre, hb]
    simp only [hsut, Bool.true_eq_false, if_false]
    rw [sniff]
    rw [if_neg (show ¬ (2 ≤ (10 :: r).length ∧ (10 :: r).take 2 = [13, 10]) by
      rintro ⟨-, hc⟩
      simp [List.take_succ_cons] at hc)]
    rw [if_pos (show (10 :: r).head? = some 10 from rfl)]
  · intro hdrs auf s b o r fuel hb hsut hnc hnl
    rw [innerF, innerPre, hb]
    simp only [hsut, Bool.true_eq_false, if_false]
    rw [sniff, if_neg hnc, if_neg hnl]

/-- C3 witness: with CRLF after the first boundary the loop runs on the
2-byte terminator. -/
theorem c3_terminator_sniff_witness :
    innerF 2 [(bs "content-type", bs "multipart/mixed; boundary=b")] false
      (bs "--b\r\na: x\r\n\r\ny\r\n--b--") =
    partLoopF 2 false (bs "--b") [13, 10] [] (bs "\r\na: x\r\n\r\ny\r\n--b--") :=
  c3_terminator_sniff.1 _ false _ (bs "--b") [] (bs "a: x\r\n\r\ny\r\n--b--") 2
    (by rfl) (by rfl)

/-- C2 counterexample: with `always_use_files` false, a part carrying no
`content-disposition` header at all is nevertheless not classified as an
in-memory `Part` node when its `content-type` is `multipart/*` — it becomes
a `Multipart` container node, because the nested-container check precedes
the file-vs-memory classification. -/
theorem c2_classification_counterexample :
    read_multipart_body 3 [(bs "content-type", bs "multipart/mixed; boundary=b")] false
      (bs "--b\r\ncontent-type: multipart/x; boundary=c\r\n\r\n--c\r\na: x\r\n\r\nz\r\n--c--")
      = some (.ok [.multipart [(bs "content-type", bs "multipart/x; boundary=c")]
          [.part [(bs "a", bs "x")] (bs "z")]]) ∧
    hmGet [(bs "content-type", bs "multipart/x; boundary=c")]
      (bs "content-disposition") = none ∧
    (some (.ok [.multipart [(bs "content-type", bs "multipart/x; boundary=c")]
        [.part [(bs "a", bs "x")] (bs "z")]]) : Option (Except Err (List Node))) ≠
      some (.ok [.part [(bs "content-type", bs "multipart/x; boundary=c")]
        [122]]) := by
  refine ⟨by rfl, by rfl, ?_⟩
  intro hc
  simp at hc

/-- C2 (amended): classification of non-nested parts. With
`always_use_files` false, a part whose `content-disposition` value contains
`filename=` is classified as a file, a part whose value contains neither
`attachment` nor `filename` (or that has no such header) is classified
in-memory; with the flag true every part reaching the classification is a
file. The two loop-step equations tie the classifier's verdict to the node
that the part loop appends: a non-nested part classified as file becomes a
`File` node whose content is the streamed bytes, one classified in-memory
becomes a `Part` node. -/
theorem c2_classification :
    (∀ (h : HeaderMap) (cd s : List Nat),
      hmGet h (bs "content-disposition") = some cd → toStr cd = some s →
      containsSeq (bs "filename=") s = true → checkIsFile false h = .ok true) ∧
    (∀ h : HeaderMap, hmGet h (bs "content-disposition") = none →
      checkIsFile false h = .ok false) ∧
    (∀ (h : HeaderMap) (cd s : List Nat),
      hmGet h (bs "content-disposition") = some cd → toStr cd = some s →
      containsSeq (bs "attachment") s = false → containsSeq (bs "filename") s = false →
      checkIsFile false h = .ok false) ∧
    (∀ h : HeaderMap, checkIsFile true h = .ok true) ∧
    (∀ (fuel : Nat) (auf : Bool) (b lt : List Nat) (acc : List Node) (s o1 s1 o2 s2 : List Nat)
      (ph : HeaderMap) (o3 s3 : List Nat),
      ¬ (2 ≤ s.length ∧ s.take 2 = [45, 45]) →
      streamUntilToken lt s = ⟨o1, true, s1⟩ →
      streamUntilToken (lt ++ lt) s1 = ⟨o2, true, s2⟩ →
      phRun (o2 ++ (lt ++ lt)) 4 = .ok ph →
      checkNested ph = .ok false →
      checkIsFile auf ph = .ok true →
      streamUntilToken (lt ++ b) s2 = ⟨o3, true, s3⟩ →
      partLoopF (fuel + 1) auf b lt acc s =
        partLoopF fuel auf b lt (acc ++ [.file ph o3 (some o3.length)]) s3) ∧
    (∀ (fuel : Nat) (auf : Bool) (b lt : List Nat) (acc : List Node) (s o1 s1 o2 s2 : List Nat)
      (ph : HeaderMap) (o3 s3 : List Nat),
      ¬ (2 ≤ s.length ∧ s.take 2 = [45, 45]) →
      streamUntilToken lt s = ⟨o1, true, s1⟩ →
      streamUntilToken (lt ++ lt) s1 = ⟨o2, true, s2⟩ →
      phRun (o2 ++ (lt ++ lt)) 4 = .ok ph →
      checkNested ph = .ok false →
      checkIsFile auf ph = .ok false →
      streamUntilToken (lt ++ b) s2 = ⟨o3, true, s3⟩ →
      partLoopF (fuel + 1) auf b lt acc s =
        partLoopF fuel auf b lt (acc ++ [.part ph o3]) s3) := by
  refine ⟨?_, ?_, ?_, ?_, ?_, ?_⟩
  · intro h cd s hg ht hf
    have hf' : containsSeq (bs "filename") s = true := by
      rw [containsSeq_iff] at hf ⊢
      have hpref : bs "filename" <+: bs "filename=" :=
        List.isPrefixOf_iff_prefix.mp (by decide)
      exact hpref.isInfix.trans hf
    simp only [checkIsFile, Bool.false_eq_true, if_false, hg, ht, hf', Bool.or_true]
  · intro h hg
    simp only [checkIsFile, Bool.false_eq_true, if_false, hg]
  · intro h cd s hg ht ha hf
    simp only [checkIsFile, Bool.false_eq_true, if_false, hg, ht, ha, hf, Bool.or_self]
  · intro h
    simp [checkIsFile]
  · intro fuel auf b lt acc s o1 s1 o2 s2 ph o3 s3 hpeek h1 h2 hph hnest hfile h3
    rw [partLoopF]
    simp only [h1, h2, h3, hph, hnest, hfile, hpeek, Bool.true_eq_false, if_false]
  · intro fuel auf b lt acc s o1 s1 o2 s2 ph o3 s3 hpeek h1 h2 hph hnest hfile h3
    rw [partLoopF]
    simp only [h1, h2, h3, hph, hnest, hfile, hpeek, Bool.true_eq_false, if_false]

/-- C2 witness: a `filename=` disposition is classified as a file with the
flag off. -/
theorem c2_classification_witness :
    checkIsFile false [(bs "content-disposition",
      bs "form-data; filename=\"a.txt\"")] = .ok true :=
  c2_classification.1 _ (bs "form-data; filename=\"a.txt\"")
    (bs "form-data; filename=\"a.txt\"") rfl rfl (by decide)

/-- C1 counterexample: writing the one-element sequence consisting of an
in-memory `Part` whose `content-disposition` value is `attachment` and then
parsing the produced bytes (flag false) does not return the original
sequence — the part comes back classified as a `File` node. -/
theorem c1_roundtrip_counterexample :
    write_multipart [98] [.part [(bs "content-disposition", bs "attachment")] (bs "x")]
      = .ok (bs "--b\r\ncontent-disposition: attachment\r\n\r\nx\r\n--b--", 48) ∧
    read_multipart_body 2 [(bs "content-type", bs "multipart/mixed; boundary=b")] false
      (bs "--b\r\ncontent-disposition: attachment\r\n\r\nx\r\n--b--")
      = some (.ok [.file [(bs "content-disposition", bs "attachment")] (bs "x") (some 1)]) ∧
    (some (.ok [Node.file [(bs "content-disposition", bs "attachment")] (bs "x") (some 1)])
        : Option (Except Err (List Node))) ≠
      some (.ok [.part [(bs "content-disposition", bs "attachment")] (bs "x")]) := by
  refine ⟨by simp [write_multipart, bs, headerLines, hdrCount], by rfl, ?_⟩
  intro hc
  simp at hc

/-- C1 (amended): the round trip holds for every nonempty sequence of
in-memory `Part` nodes satisfying the round-trip side conditions
(`goodPart`): between 1 and 4 headers per part, each with a nonempty
lowercase token name and a nonempty printable-ASCII value that neither
starts nor ends with a space, headers the parser classifies back as a
non-nested in-memory part, and a body free of the inter-boundary token.
Writing under a CR-free boundary value carried by the supplied
`content-type` header and re-parsing with `always_use_files` false returns
the exact original sequence: same length, same order, same headers, same
body bytes. -/
theorem c1_roundtrip (bval : List Nat) (hdrs : HeaderMap) (ns : List Node)
    (hb : get_multipart_boundary hdrs = .ok ([45, 45] ++ bval))
    (hbv : ∀ b ∈ bval, b ≠ 13)
    (hnempty : ns ≠ [])
    (hgood : ∀ n ∈ ns, goodPart ([45, 45] ++ bval) n) :
    ∀ (out : List Nat) (cnt : Nat), write_multipart bval ns = .ok (out, cnt) →
      read_multipart_body (ns.length + 1) hdrs false out = some (.ok ns) := by
  intro out cnt hw
  obtain ⟨c', hc'⟩ := write_parts ns bval hgood
  rw [hw] at hc'
  simp only [Except.ok.injEq, Prod.mk.injEq] at hc'
  obtain ⟨hout, -⟩ := hc'
  subst hout
  have hsut : streamUntilToken ([45, 45] ++ bval)
      (([45, 45] ++ bval) ++ streamFrom ([45, 45] ++ bval) ns) =
      ⟨[], true, streamFrom ([45, 45] ++ bval) ns⟩ := by
    rw [sut_pref (by simp) (List.prefix_append _ _), List.drop_left]
  have hsniff : sniff (streamFrom ([45, 45] ++ bval) ns) = .ok [13, 10] := by
    cases ns with
    | nil => exact absurd rfl hnempty
    | cons nd rest =>
      have hg := hgood nd (by simp)
      rcases nd with ⟨h, body⟩ | ⟨h, c0, sz⟩ | ⟨h, ch⟩
      rotate_left
      · simp [goodPart] at hg
      · simp [goodPart] at hg
      rw [streamFrom]
      rw [sniff, if_pos (by constructor <;> simp [List.take_append_eq_append_take])]
  rw [read_multipart_body, innerF, innerPre, hb]
  simp only [hsut, hsniff, Bool.true_eq_false, if_false]
  rw [partLoopF_roundtrip ns bval [] hbv hgood]
  simp

/-- C1 witness: one good part round-trips concretely under boundary `b`. -/
theorem c1_roundtrip_witness :
    read_multipart_body 2 [(bs "content-type", bs "multipart/mixed; boundary=b")] false
      (bs "--b\r\na: x\r\n\r\ny\r\n--b--") =
      some (.ok [.part [(bs "a", bs "x")] (bs "y")]) := by
  have h := c1_roundtrip [98] [(bs "content-type", bs "multipart/mixed; boundary=b")]
    [.part [(bs "a", bs "x")] (bs "y")] (by rfl) (by decide) (by simp)
    (by
      intro n hn
      simp only [List.mem_singleton] at hn
      subst hn
      refine ⟨by decide, by decide, ?_, by rfl, by rfl, by decide⟩
      intro p hp
      simp only [List.mem_singleton] at hp
      subst hp
      exact ⟨⟨by decide, by decide⟩, by decide, by decide, by decide, by decide⟩)
    (bs "--b\r\na: x\r\n\r\ny\r\n--b--") 21
    (by simp [write_multipart, bs, headerLines, hdrCount])
  simpa using h
